import Mathlib

/-!
Verification of the logdog watchdog engine (MaaGF1/logdog).

The Python sources under `src/src/` are shallowly embedded as executable
Lean definitions over `List Char` (one `Char` per byte of the original
text, which is ASCII in every behaviour the claims touch).  The regular
expressions of the line parser are embedded as explicit backtracking
matchers that follow Python's `re.search` semantics (leftmost match,
lazy capture tried shortest-first, greedy whitespace runs followed by a
non-whitespace literal).  The state machine implementation
(`state_machine.py`) is not part of the sources; its operations are
modelled from the specification where needed, and each such definition
says so in its doc comment.
-/

namespace Logdog

/-- ASCII whitespace recognised by Python's `str.strip()` and by the
regex class `\s` on the characters that occur in log lines. -/
def isSpaceChar (c : Char) : Bool :=
  c = ' ' || c = '\t' || c = '\n' || c = '\r' || c = '\x0b' || c = '\x0c'

/-- `str.strip()`: drop leading and trailing whitespace. -/
def stripChars (l : List Char) : List Char :=
  ((l.dropWhile isSpaceChar).reverse.dropWhile isSpaceChar).reverse

/-- Python's case-sensitive substring test `pat in l`. -/
def isSub (pat : List Char) : List Char → Bool
  | [] => pat.isPrefixOf []
  | c :: cs => pat.isPrefixOf (c :: cs) || isSub pat cs

/-- Case-insensitive literal match: if the lowercase image of a front
segment of `l` equals `pat` (given in lowercase), return the rest. -/
def ciPrefix (pat : List Char) (l : List Char) : Option (List Char) :=
  match pat, l with
  | [], rest => some rest
  | _ :: _, [] => none
  | p :: ps, c :: cs => if c.toLower = p then ciPrefix ps cs else none

/-- Tail of regex patterns 1 and 2 after the captured group's closing
bracket: `\s*\|\s*enter` (resp. `complete`).  `\s*` is greedy and is
followed by a non-whitespace literal, so maximal munch is exact. -/
def tailLit (word : List Char) (l : List Char) : Bool :=
  match l.dropWhile isSpaceChar with
  | '|' :: r => (ciPrefix word (r.dropWhile isSpaceChar)).isSome
  | _ => false

/-- The negative lookahead body of pattern 3: `.*(?:list=|result\.name=)`
matches at `l` iff one of the two literals occurs (case-insensitively)
at some position reachable without crossing a newline. -/
def lookaheadHit : List Char → Bool
  | [] => false
  | c :: cs =>
    (ciPrefix ('l' :: 'i' :: 's' :: 't' :: '=' :: []) (c :: cs)).isSome ||
    (ciPrefix ('r' :: 'e' :: 's' :: 'u' :: 'l' :: 't' :: '.' :: 'n' :: 'a' :: 'm' :: 'e' :: '=' :: []) (c :: cs)).isSome ||
    (c ≠ '\n' && lookaheadHit cs)

/-- Lazy capture `(.*?)\]` followed by a tail test: try the shortest
capture first; a failed tail extends the capture past the bracket
(backtracking), a newline kills the match (`.` excludes newlines).
Returns the capture together with the text after the closing bracket. -/
def findCapFull (tailOk : List Char → Bool) : List Char → Option (List Char × List Char)
  | [] => none
  | c :: cs =>
    if c = ']' && tailOk cs then some ([], cs)
    else if c = '\n' then none
    else
      match findCapFull tailOk cs with
      | some (cap, suf) => some (c :: cap, suf)
      | none => none

/-- Literal key of patterns 1 and 2 (and alternative 2 of pattern 3). -/
def keyPdn : List Char := "[pipeline_data.name=".data

/-- Literal key of alternative 1 of pattern 3. -/
def keyNn : List Char := "[node_name=".data

/-- Attempt one of patterns 1/2 at a fixed position: the key, the lazy
capture, the bracket, then `\s*\|\s*word`. -/
def enterAt (word : List Char) (l : List Char) : Option (List Char × List Char) :=
  match ciPrefix keyPdn l with
  | some rest => findCapFull (tailLit word) rest
  | none => none

/-- `re.search` for patterns 1/2: scan start positions left to right. -/
def enterSearch (word : List Char) : List Char → Option (List Char × List Char)
  | [] => none
  | c :: cs =>
    match enterAt word (c :: cs) with
    | some r => some r
    | none => enterSearch word cs

/-- Pattern 3's tail condition: the negative lookahead
`(?!.*(?:list=|result\.name=))` evaluated at the position just after
the captured group's closing bracket. -/
def tailGeneral (l : List Char) : Bool := !(lookaheadHit l)

/-- Pattern 3 at a fixed position, alternative `pipeline_data.name`. -/
def generalAtPdn (l : List Char) : Option (List Char × List Char) :=
  match ciPrefix keyPdn l with
  | some rest => findCapFull tailGeneral rest
  | none => none

/-- Pattern 3 at a fixed position: alternative `node_name` first, then
`pipeline_data.name`, as the regex alternation orders them. -/
def generalAt (l : List Char) : Option (List Char × List Char) :=
  match ciPrefix keyNn l with
  | some rest =>
    match findCapFull tailGeneral rest with
    | some r => some r
    | none => generalAtPdn l
  | none => generalAtPdn l

/-- `re.search` for pattern 3. -/
def generalSearch : List Char → Option (List Char × List Char)
  | [] => none
  | c :: cs =>
    match generalAt (c :: cs) with
    | some r => some r
    | none => generalSearch cs

/-- `_process_log_line`'s pattern cascade without the fast-reject
pre-check: pattern 1 (`| enter`), else pattern 2 (`| complete`), else
pattern 3; the first matching pattern's capture is stripped and an
empty result yields no node (later patterns are not consulted, as in
the source's `if match:` chain). -/
def extractNoPre (l : List Char) : Option (List Char) :=
  match enterSearch ('e' :: 'n' :: 't' :: 'e' :: 'r' :: []) l with
  | some r => let n := stripChars r.1; if n.isEmpty then none else some n
  | none =>
    match enterSearch ('c' :: 'o' :: 'm' :: 'p' :: 'l' :: 'e' :: 't' :: 'e' :: []) l with
    | some r => let n := stripChars r.1; if n.isEmpty then none else some n
    | none =>
      match generalSearch l with
      | some r => let n := stripChars r.1; if n.isEmpty then none else some n
      | none => none

/-- `_process_log_line`'s extraction including the fast-reject
pre-check: a line containing neither the literal (case-sensitive)
substring `pipeline_data.name` nor `node_name` is rejected before any
pattern runs. -/
def extractNode (l : List Char) : Option (List Char) :=
  if !(isSub ("pipeline_data.name".data) l) && !(isSub ("node_name".data) l) then none
  else extractNoPre l

theorem ciPrefix_decomp {pat l r : List Char} (h : ciPrefix pat l = some r) :
    ∃ k, l = k ++ r ∧ k.map Char.toLower = pat := by
  induction pat generalizing l with
  | nil =>
    refine ⟨[], ?_, rfl⟩
    simpa [ciPrefix] using h
  | cons p ps ih =>
    cases l with
    | nil => simp [ciPrefix] at h
    | cons c cs =>
      simp only [ciPrefix] at h
      split at h
      · obtain ⟨k, hk, hlow⟩ := ih h
        exact ⟨c :: k, by simp [hk], by simp [hlow]; assumption⟩
      · exact absurd h (by simp)

theorem findCapFull_spec {tailOk : List Char → Bool} {l cap suf : List Char}
    (h : findCapFull tailOk l = some (cap, suf)) :
    l = cap ++ ']' :: suf ∧ tailOk suf = true := by
  induction l generalizing cap with
  | nil => simp [findCapFull] at h
  | cons c cs ih =>
    simp only [findCapFull] at h
    split at h
    · rename_i hc
      obtain ⟨h1, h2⟩ := Option.some.injEq _ _ ▸ h
      cases h
      simp only [Bool.and_eq_true, decide_eq_true_eq] at hc
      exact ⟨by simp [hc.1], hc.2⟩
    · split at h
      · exact absurd h (by simp)
      · cases hrec : findCapFull tailOk cs with
        | none => rw [hrec] at h; exact absurd h (by simp)
        | some r =>
          rw [hrec] at h
          obtain ⟨cap', suf'⟩ := r
          simp only [Option.some.injEq, Prod.mk.injEq] at h
          obtain ⟨hcap, hsuf⟩ := h
          obtain ⟨e1, e2⟩ := ih (by rw [hrec, hsuf])
          subst hcap
          exact ⟨by simp [e1], e2⟩

theorem generalAtPdn_spec {l cap suf : List Char}
    (h : generalAtPdn l = some (cap, suf)) :
    ∃ k, l = k ++ cap ++ ']' :: suf ∧
      (k.map Char.toLower = keyNn ∨ k.map Char.toLower = keyPdn) ∧
      tailGeneral suf = true := by
  simp only [generalAtPdn] at h
  cases hp : ciPrefix keyPdn l with
  | none => rw [hp] at h; exact absurd h (by simp)
  | some rest =>
    rw [hp] at h
    obtain ⟨k, hk, hlow⟩ := ciPrefix_decomp hp
    obtain ⟨e1, e2⟩ := findCapFull_spec h
    exact ⟨k, by simp [hk, e1], Or.inr hlow, e2⟩

theorem generalAt_spec {l cap suf : List Char}
    (h : generalAt l = some (cap, suf)) :
    ∃ k, l = k ++ cap ++ ']' :: suf ∧
      (k.map Char.toLower = keyNn ∨ k.map Char.toLower = keyPdn) ∧
      tailGeneral suf = true := by
  simp only [generalAt] at h
  split at h
  · rename_i rest hp
    split at h
    · rename_i r hf
      obtain ⟨cap', suf'⟩ := r
      simp only [Option.some.injEq, Prod.mk.injEq] at h
      obtain ⟨hcap, hsuf⟩ := h
      subst hcap; subst hsuf
      obtain ⟨k, hk, hlow⟩ := ciPrefix_decomp hp
      obtain ⟨e1, e2⟩ := findCapFull_spec hf
      exact ⟨k, by simp [hk, e1], Or.inl hlow, e2⟩
    · exact generalAtPdn_spec h
  · exact generalAtPdn_spec h

theorem generalSearch_spec {l cap suf : List Char}
    (h : generalSearch l = some (cap, suf)) :
    ∃ p k, l = p ++ k ++ cap ++ ']' :: suf ∧
      (k.map Char.toLower = keyNn ∨ k.map Char.toLower = keyPdn) ∧
      tailGeneral suf = true := by
  induction l with
  | nil => simp [generalSearch] at h
  | cons c cs ih =>
    simp only [generalSearch] at h
    cases ha : generalAt (c :: cs) with
    | some r =>
      rw [ha] at h
      obtain ⟨cap', suf'⟩ := r
      simp only [Option.some.injEq, Prod.mk.injEq] at h
      obtain ⟨hcap, hsuf⟩ := h
      subst hcap; subst hsuf
      obtain ⟨k, hk, hlow, ht⟩ := generalAt_spec ha
      exact ⟨[], k, by simpa using hk, hlow, ht⟩
    | none =>
      rw [ha] at h
      obtain ⟨p, k, hk, hlow, ht⟩ := ih h
      exact ⟨c :: p, k, by simp [hk], hlow, ht⟩

/-- C3 counterexample: the fast-reject pre-check does change the
outcome.  The patterns are case-insensitive, but the pre-check is a
case-sensitive substring test, so the line
`[PIPELINE_DATA.NAME=X] | enter` is matched by pattern 1 when the
patterns run directly (yielding node `X`) yet is rejected by the
pre-check (yielding no node). -/
theorem fastReject_changes_outcome :
    extractNode ("[PIPELINE_DATA.NAME=X] | enter".data) = none ∧
    extractNoPre ("[PIPELINE_DATA.NAME=X] | enter".data) = some ("X".data) := by
  constructor
  · decide
  · decide

/-- C3 (amended): on every line that contains the literal
(case-sensitive) substring `pipeline_data.name` or `node_name`, the
fast-reject pre-check does not change the extraction outcome; on lines
where the key tokens appear only in other letter cases the pre-check
returns none although the case-insensitive patterns may match. -/
theorem fastReject_preserves_outcome_on_lowercase_keys (l : List Char)
    (h : isSub ("pipeline_data.name".data) l = true ∨ isSub ("node_name".data) l = true) :
    extractNode l = extractNoPre l := by
  rcases h with h | h <;> simp [extractNode, h]

/-- Witness for the amended C3 theorem at a concrete line. -/
theorem fastReject_preserves_outcome_on_lowercase_keys_witness :
    extractNode ("[node_name=Y]".data) = extractNoPre ("[node_name=Y]".data) :=
  fastReject_preserves_outcome_on_lowercase_keys ("[node_name=Y]".data) (Or.inr (by decide))

/-- C4 counterexample: the negative constraint of pattern 3 is not
evaluated on the whole line.  The line `list= [node_name=X]` contains
the forbidden substring `list=` before the bracketed token, patterns 1
and 2 do not match it, and yet the parser extracts node `X` from
pattern 3 — because the source's lookahead only inspects the text after
the match's closing bracket. -/
theorem generalPattern_forbidden_before_token_still_matches :
    extractNode ("list= [node_name=X]".data) = some ("X".data) ∧
    isSub ("list=".data) ("list= [node_name=X]".data) = true ∧
    enterSearch ('e' :: 'n' :: 't' :: 'e' :: 'r' :: []) ("list= [node_name=X]".data) = none ∧
    enterSearch ('c' :: 'o' :: 'm' :: 'p' :: 'l' :: 'e' :: 't' :: 'e' :: []) ("list= [node_name=X]".data) = none := by
  refine ⟨by decide, by decide, by decide, by decide⟩

/-- C4 (amended): whenever pattern 3 produces a match, the portion of
the line strictly after the matched closing bracket contains no
occurrence of `list=` or `result.name=` (reachable without crossing a
newline, which is what the source's lookahead `.*` permits), and the
line decomposes as some text, the matched key (`[node_name=` or
`[pipeline_data.name=` up to letter case), the capture, the closing
bracket and that suffix.  Forbidden substrings before or inside the
match do not block extraction. -/
theorem generalPattern_constraint_on_suffix_only (l cap suf : List Char)
    (h : generalSearch l = some (cap, suf)) :
    lookaheadHit suf = false ∧
    ∃ p k, l = p ++ k ++ cap ++ ']' :: suf ∧
      (k.map Char.toLower = keyNn ∨ k.map Char.toLower = keyPdn) := by
  obtain ⟨p, k, hk, hlow, ht⟩ := generalSearch_spec h
  refine ⟨?_, p, k, hk, hlow⟩
  simpa [tailGeneral] using ht

/-- Python's `content.split(sep)` for a one-character separator. -/
def splitCh (sep : Char) : List Char → List (List Char)
  | [] => [[]]
  | c :: cs =>
    if c = sep then [] :: splitCh sep cs
    else
      match splitCh sep cs with
      | [] => [[c]]
      | h :: t => (c :: h) :: t

/-- The line filter of `_read_new_log_lines`:
`[line for line in content.split(newline) if line.strip()]`. -/
def nbLines (content : List Char) : List (List Char) :=
  (splitCh '\n' content).filter (fun l => !(stripChars l).isEmpty)

/-- `content.rfind(newline)`: index of the last newline, if any. -/
def lastNlIdx : List Char → Option Nat
  | [] => none
  | c :: cs =>
    match lastNlIdx cs with
    | some k => some (k + 1)
    | none => if c = '\n' then some 0 else none

/-- Length of the complete-line prefix of a read: everything up to and
including the last newline (zero when there is none). -/
def completeLenOf (content : List Char) : Nat :=
  match lastNlIdx content with
  | some k => k + 1
  | none => 0

/-- One read of `_read_new_log_lines` after the cursor was positioned:
given the bytes from the cursor to end-of-file, return the emitted
lines and how many of those bytes the cursor advances over (the code
rewinds the file position over a trailing partial line, or over the
whole read when it holds no newline at all). -/
def pollRead (content : List Char) : List (List Char) × Nat :=
  if content.isEmpty then ([], 0)
  else if content.getLast? = some '\n' then (nbLines content, content.length)
  else
    match lastNlIdx content with
    | some k => (nbLines (content.take (k + 1)), k + 1)
    | none => ([], 0)

/-- One call of `_read_new_log_lines`: sample the file size, reset the
cursor to byte 0 if the file shrank below it (printing a truncation
notice, returned here as the Boolean component), read to end-of-file
and split off complete lines.  The file is the current byte content;
the cursor is the retained read position. -/
def poll (file : List Char) (cursor : Nat) : List (List Char) × Nat × Bool :=
  let start := if file.length < cursor then 0 else cursor
  let r := pollRead (file.drop start)
  (r.1, start + r.2, decide (file.length < cursor))

/-- Repeated polling of a growing file: poll the current content, then
append the next delta and continue; the final poll sees the file with
every delta applied. -/
def pollAll (file : List Char) (cursor : Nat) : List (List Char) → List (List Char) × Nat
  | [] => ((poll file cursor).1, (poll file cursor).2.1)
  | d :: ds =>
    let r := poll file cursor
    let rest := pollAll (file ++ d) r.2.1 ds
    (r.1 ++ rest.1, rest.2)

theorem splitCh_ne_nil (sep : Char) (l : List Char) : splitCh sep l ≠ [] := by
  cases l with
  | nil => simp [splitCh]
  | cons c cs =>
    simp only [splitCh]
    split
    · simp
    · split <;> simp

theorem splitCh_append (sep : Char) (a b : List Char) :
    splitCh sep (a ++ sep :: b) = splitCh sep a ++ splitCh sep b := by
  induction a with
  | nil => simp [splitCh]
  | cons c a ih =>
    by_cases hc : c = sep
    · simp [splitCh, hc, ih]
    · rw [List.cons_append]
      simp only [splitCh, if_neg hc, ih]
      cases hsa : splitCh sep a with
      | nil => exact absurd hsa (splitCh_ne_nil sep a)
      | cons h t => simp

theorem nbLines_nil : nbLines [] = [] := by decide

theorem nbLines_append {A : List Char} (B : List Char)
    (h : A = [] ∨ A.getLast? = some '\n') :
    nbLines (A ++ B) = nbLines A ++ nbLines B := by
  rcases h with h | h
  · simp [h, nbLines_nil]
  · obtain ⟨a, ha⟩ : ∃ a, A = a ++ ['\n'] :=
      ⟨A.dropLast, (List.dropLast_append_getLast? '\n' h).symm⟩
    subst ha
    have h2 : nbLines ((a ++ ['\n']) ++ B) = nbLines a ++ nbLines B := by
      have : (a ++ ['\n']) ++ B = a ++ '\n' :: B := by simp
      rw [this]
      unfold nbLines
      rw [splitCh_append, List.filter_append]
    have h3 : nbLines (a ++ ['\n']) = nbLines a := by
      have : a ++ ['\n'] = a ++ '\n' :: ([] : List Char) := by simp
      rw [this]
      unfold nbLines
      rw [splitCh_append, List.filter_append]
      simp [splitCh, stripChars]
    rw [h2, h3]

theorem lastNlIdx_eq_none {l : List Char} (h : '\n' ∉ l) : lastNlIdx l = none := by
  induction l with
  | nil => rfl
  | cons c cs ih =>
    simp only [List.mem_cons, not_or] at h
    simp [lastNlIdx, ih h.2, Ne.symm h.1]

theorem lastNlIdx_spec {l : List Char} {k : Nat} (h : lastNlIdx l = some k) :
    k < l.length ∧ l[k]? = some '\n' := by
  induction l generalizing k with
  | nil => simp [lastNlIdx] at h
  | cons c cs ih =>
    simp only [lastNlIdx] at h
    split at h
    · rename_i j hr
      simp only [Option.some.injEq] at h
      subst h
      obtain ⟨h1, h2⟩ := ih hr
      exact ⟨by simpa using h1, by simpa using h2⟩
    · split at h
      · rename_i hc
        simp only [Option.some.injEq] at h
        subst h
        simp [hc]
      · exact absurd h (by simp)

theorem lastNlIdx_of_spec {l : List Char} {k : Nat}
    (h1 : l[k]? = some '\n') (h2 : ∀ j, k < j → l[j]? ≠ some '\n') :
    lastNlIdx l = some k := by
  induction l generalizing k with
  | nil => simp at h1
  | cons c cs ih =>
    cases k with
    | zero =>
      have hnil : lastNlIdx cs = none := by
        apply lastNlIdx_eq_none
        intro hmem
        obtain ⟨j, hj, hget⟩ := List.getElem_of_mem hmem
        exact h2 (j + 1) (Nat.succ_pos j)
          (by simp [List.getElem?_eq_getElem hj, hget])
      simp only [List.getElem?_cons_zero, Option.some.injEq] at h1
      simp [lastNlIdx, hnil, h1]
    | succ j =>
      have hk : lastNlIdx cs = some j :=
        ih (by simpa using h1) (fun i hi => by
          have := h2 (i + 1) (by omega)
          simpa using this)
      simp [lastNlIdx, hk]

theorem completeLenOf_le (content : List Char) : completeLenOf content ≤ content.length := by
  unfold completeLenOf
  cases h : lastNlIdx content with
  | none => simp
  | some k => exact (lastNlIdx_spec h).1

theorem pollRead_eq (content : List Char) :
    pollRead content = (nbLines (content.take (completeLenOf content)), completeLenOf content) := by
  unfold pollRead
  split
  · rename_i hnil
    rw [List.isEmpty_iff] at hnil
    subst hnil
    simp [completeLenOf, lastNlIdx, nbLines_nil]
  · split
    · rename_i hnil hlast
      have hne : content ≠ [] := by simpa [List.isEmpty_iff] using hnil
      have hlen : 0 < content.length := List.length_pos.mpr hne
      have hidx : lastNlIdx content = some (content.length - 1) := by
        apply lastNlIdx_of_spec
        · rw [List.getLast?_eq_getElem? content] at hlast
          exact hlast
        · intro j hj
          rw [List.getElem?_eq_none (by omega)]
          simp
      have hcl : completeLenOf content = content.length := by
        simp [completeLenOf, hidx]; omega
      rw [hcl, List.take_length]
    · rename_i hnil hlast
      cases hidx : lastNlIdx content with
      | some k => simp [completeLenOf, hidx]
      | none => simp [completeLenOf, hidx, nbLines_nil]

theorem lastNlIdx_append (a b : List Char) :
    lastNlIdx (a ++ b) =
      (match lastNlIdx b with
       | some k => some (a.length + k)
       | none => lastNlIdx a) := by
  induction a with
  | nil => cases hb : lastNlIdx b <;> simp [hb, lastNlIdx]
  | cons c a ih =>
    rw [List.cons_append]
    simp only [lastNlIdx, ih]
    cases hb : lastNlIdx b with
    | some k =>
      simp only [Option.some.injEq, List.length_cons]
      omega
    | none =>
      cases ha : lastNlIdx a with
      | some j => simp
      | none => simp

theorem completeLenOf_append {A : List Char} (R : List Char)
    (h : A = [] ∨ A.getLast? = some '\n') :
    completeLenOf (A ++ R) = A.length + completeLenOf R := by
  rcases h with h | h
  · simp [h]
  · have hAne : A ≠ [] := by rintro rfl; simp at h
    have hAlen : 0 < A.length := List.length_pos.mpr hAne
    have hA : lastNlIdx A = some (A.length - 1) := by
      apply lastNlIdx_of_spec
      · rw [List.getLast?_eq_getElem? A] at h
        exact h
      · intro j hj
        rw [List.getElem?_eq_none (by omega)]
        simp
    unfold completeLenOf
    rw [lastNlIdx_append]
    cases hR : lastNlIdx R with
    | some k => simp; omega
    | none => simp [hA]; omega

/-- C5: a poll whose read contains no newline emits no lines and leaves
the cursor where it was, so the bytes are re-fetched next time; a poll
whose read contains a newline emits the (non-blank) lines of the bytes
up to and including the last newline and advances the cursor exactly
past that newline, retaining the trailing partial line for the next
read.  The Boolean component witnesses that no truncation reset
happened. -/
theorem tailer_partial_line_retention (file : List Char) (cursor : Nat)
    (h : cursor ≤ file.length) :
    ('\n' ∉ file.drop cursor → poll file cursor = ([], cursor, false)) ∧
    (∀ k, (file.drop cursor)[k]? = some '\n' →
      (∀ j, k < j → (file.drop cursor)[j]? ≠ some '\n') →
      poll file cursor =
        (nbLines ((file.drop cursor).take (k + 1)), cursor + (k + 1), false)) := by
  have hnl : ¬ file.length < cursor := by omega
  constructor
  · intro hno
    have hidx : lastNlIdx (file.drop cursor) = none := lastNlIdx_eq_none hno
    simp [poll, hnl, pollRead_eq, completeLenOf, hidx, nbLines_nil]
  · intro k h1 h2
    have hidx : lastNlIdx (file.drop cursor) = some k := lastNlIdx_of_spec h1 h2
    simp [poll, hnl, pollRead_eq, completeLenOf, hidx]

/-- Witness for the C5 theorem: a newline-free read retains everything;
a read ending at a newline advances exactly past it. -/
theorem tailer_partial_line_retention_witness :
    poll ("xy".data) 0 = ([], 0, false) ∧
    poll ("ab\n".data) 0 =
      (nbLines ((("ab\n".data).drop 0).take (2 + 1)), 0 + (2 + 1), false) := by
  constructor
  · exact (tailer_partial_line_retention ("xy".data) 0 (by decide)).1 (by decide)
  · exact (tailer_partial_line_retention ("ab\n".data) 0 (by decide)).2 2 (by decide)
      (by
        intro j hj
        rw [List.getElem?_eq_none (by simp; omega)]
        simp)

/-- C6: when the sampled size is below the cursor the poll resets the
cursor to byte 0 (discarding the retained partial-line position),
reports the reset through the truncation notice (the Python source
prints the warning that the native engine surfaces as an `EngineLog`
event), and returns the complete lines of the rewritten file from its
beginning, in order; the poll returns normally rather than failing. -/
theorem tailer_truncation_resets_and_recovers (file : List Char) (cursor : Nat)
    (h : file.length < cursor) :
    poll file cursor =
      (nbLines (file.take (completeLenOf file)), completeLenOf file, true) := by
  simp [poll, h, pollRead_eq]

/-- Witness for the C6 theorem: after a truncate-to-zero followed by one
complete line, a poll with a stale larger cursor returns that line and
flags the reset. -/
theorem tailer_truncation_resets_and_recovers_witness :
    poll ("[pipeline_data.name=A]|enter\n".data) 1000 =
      ([("[pipeline_data.name=A]|enter".data)], 29, true) := by
  rw [tailer_truncation_resets_and_recovers ("[pipeline_data.name=A]|enter\n".data) 1000
    (by decide)]
  decide

theorem take_completeLen_getLast (C : List Char) :
    C.take (completeLenOf C) = [] ∨
      (C.take (completeLenOf C)).getLast? = some '\n' := by
  unfold completeLenOf
  cases hL : lastNlIdx C with
  | none => simp
  | some k =>
    right
    obtain ⟨hk, hget⟩ := lastNlIdx_spec hL
    have hlenA : (C.take (k + 1)).length = k + 1 := List.length_take_of_le (by omega)
    rw [List.getLast?_eq_getElem? (C.take (k + 1)), hlenA]
    simp only [Nat.add_sub_cancel, List.getElem?_take]
    simpa using hget

theorem nbLines_take_decomp (C E : List Char) :
    nbLines ((C ++ E).take (completeLenOf (C ++ E))) =
      nbLines (C.take (completeLenOf C)) ++
      nbLines (((C ++ E).drop (completeLenOf C)).take
        (completeLenOf ((C ++ E).drop (completeLenOf C)))) := by
  have hmle : completeLenOf C ≤ C.length := completeLenOf_le C
  have hA_eq : (C ++ E).take (completeLenOf C) = C.take (completeLenOf C) := by
    rw [List.take_append_eq_append_take]
    have : completeLenOf C - C.length = 0 := by omega
    rw [this]
    simp
  have hA := take_completeLen_getLast C
  have hlenA : (C.take (completeLenOf C)).length = completeLenOf C :=
    List.length_take_of_le hmle
  have hsplit : C ++ E = C.take (completeLenOf C) ++ (C ++ E).drop (completeLenOf C) := by
    conv_lhs => rw [← List.take_append_drop (completeLenOf C) (C ++ E)]
    rw [hA_eq]
  have hcl : completeLenOf (C ++ E) =
      completeLenOf C + completeLenOf ((C ++ E).drop (completeLenOf C)) := by
    conv_lhs => rw [hsplit]
    rw [completeLenOf_append _ hA, hlenA]
  have key : ∀ (A R : List Char) (x : Nat), A.length = completeLenOf C →
      (A ++ R).take (completeLenOf C + x) = A ++ R.take x := by
    intro A R x hA'
    rw [← hA']
    exact List.take_append x
  have htake : (C ++ E).take (completeLenOf (C ++ E)) =
      C.take (completeLenOf C) ++
      ((C ++ E).drop (completeLenOf C)).take
        (completeLenOf ((C ++ E).drop (completeLenOf C))) := by
    rw [hcl]
    have hbase := key (C.take (completeLenOf C)) ((C ++ E).drop (completeLenOf C))
      (completeLenOf ((C ++ E).drop (completeLenOf C))) hlenA
    rw [← hsplit] at hbase
    exact hbase
  rw [htake, nbLines_append _ hA]

/-- C7: over any append-only history, the lines returned across all
polls, concatenated in order, are exactly the non-blank lines of the
file content from the starting cursor up to and including the last
newline of the final content — no complete-line byte is dropped and
none is returned twice (blank lines are dropped, as the encoding rule
declares). -/
theorem tailer_append_only_exactness (ds : List (List Char)) (file : List Char) (cursor : Nat)
    (h : cursor ≤ file.length) :
    (pollAll file cursor ds).1 =
      nbLines (((file ++ ds.flatten).drop cursor).take
        (completeLenOf ((file ++ ds.flatten).drop cursor))) := by
  induction ds generalizing file cursor with
  | nil =>
    have hnl : ¬ file.length < cursor := by omega
    simp only [pollAll, List.flatten_nil, List.append_nil]
    simp [poll, hnl, pollRead_eq]
  | cons d ds ih =>
    have hnl : ¬ file.length < cursor := by omega
    have hfirst : poll file cursor =
        (nbLines ((file.drop cursor).take (completeLenOf (file.drop cursor))),
         cursor + completeLenOf (file.drop cursor), false) := by
      simp [poll, hnl, pollRead_eq]
    have hmle : completeLenOf (file.drop cursor) ≤ (file.drop cursor).length :=
      completeLenOf_le (file.drop cursor)
    have hlenC : (file.drop cursor).length = file.length - cursor := List.length_drop _ _
    have hcur' : cursor + completeLenOf (file.drop cursor) ≤ (file ++ d).length := by
      simp only [List.length_append]
      omega
    have hrec := ih (file ++ d) (cursor + completeLenOf (file.drop cursor)) hcur'
    have hCE : (file ++ (d ++ ds.flatten)).drop cursor =
        file.drop cursor ++ (d ++ ds.flatten) := by
      rw [List.drop_append_eq_append_drop]
      have h0 : cursor - file.length = 0 := by omega
      rw [h0, List.drop_zero]
    have hS2 : ((file ++ d) ++ ds.flatten).drop (cursor + completeLenOf (file.drop cursor)) =
        (file.drop cursor ++ (d ++ ds.flatten)).drop (completeLenOf (file.drop cursor)) := by
      rw [List.append_assoc,
        ← List.drop_drop (completeLenOf (file.drop cursor)) cursor (file ++ (d ++ ds.flatten)),
        hCE]
    simp only [pollAll, hfirst, List.flatten_cons]
    rw [hrec, hS2, hCE]
    exact (nbLines_take_decomp (file.drop cursor) (d ++ ds.flatten)).symm

/-- Witness for the C7 theorem on a three-poll history. -/
theorem tailer_append_only_exactness_witness :
    (pollAll ("a".data) 1 [("b\nc".data), ("d\n".data)]).1 =
      nbLines (((("a".data) ++ ([("b\nc".data), ("d\n".data)] : List (List Char)).flatten).drop 1).take
        (completeLenOf ((("a".data) ++ ([("b\nc".data), ("d\n".data)] : List (List Char)).flatten).drop 1))) :=
  tailer_append_only_exactness [("b\nc".data), ("d\n".data)] ("a".data) 1 (by decide)

/-- Witness for the amended C4 theorem at a concrete line. -/
theorem generalPattern_constraint_on_suffix_only_witness :
    lookaheadHit (" ok".data) = false ∧
    ∃ p k, ("x[node_name=A] ok".data) = p ++ k ++ ("A".data) ++ ']' :: (" ok".data) ∧
      (k.map Char.toLower = keyNn ∨ k.map Char.toLower = keyPdn) :=
  generalPattern_constraint_on_suffix_only ("x[node_name=A] ok".data) ("A".data) (" ok".data) rfl

/-- A declared transition, as the configuration loader constructs it. -/
structure WatchdogTransition where
  target_node : String
  timeout_ms : Nat
  description : String
deriving DecidableEq

/-- A declared state rule (name, start node, expected path). -/
structure WatchdogState where
  name : String
  start_node : String
  transitions : List WatchdogTransition
  description : String
deriving DecidableEq

/-- Per-rule runtime: phase (active or idle), current transition index,
and the monotonic time of the last activation or advancement. -/
structure StateRuntime where
  active : Bool
  idx : Nat
  lastAdvance : Nat
deriving DecidableEq

/-- Modelled from the spec: `state_machine.py` (class
`WatchdogStateMachine`) is not among the sources, so the machine is a
list of rule/runtime pairs in declaration order plus the completion
node-name set installed by `load_config`. -/
structure WatchdogMachine where
  states : List (WatchdogState × StateRuntime)
  completionNodes : List String
deriving DecidableEq

/-- A declared entry node, from `config.py`. -/
structure EntryNode where
  name : String
  node_name : String
  description : String
deriving DecidableEq

/-- A declared completion node, from `config.py`. -/
structure CompletionNode where
  name : String
  node_name : String
  description : String
deriving DecidableEq

/-- The completion node-name set handed to the state machine by
`load_config` (config.py lines 108-109). -/
def completionNodeNames (comps : List CompletionNode) : List String :=
  comps.map (fun c => c.node_name)

/-- The domain events the engine can emit through the notifier. -/
inductive WatchdogEvent where
  | stateActivated (state_name : String)
  | stateCompleted (state_name node_name : String)
  | stateInterrupted (state_name node_name : String)
  | entryDetected (entry_name node_name : String)
  | stateTimeout (state_name : String) (elapsed_ms : Nat)
deriving DecidableEq

/-- Modelled from the spec: `WatchdogStateMachine.check_timeouts` on a
single rule (spec 4.3, timeout detection).  An active rule whose
elapsed time exceeds the current transition's timeout emits a timeout
and resets to idle — unless the expected target is a completion node,
in which case nothing happens and the rule stays active. -/
def stepTimeout (comp : List String) (now : Nat) (p : WatchdogState × StateRuntime) :
    Option (String × Nat) × (WatchdogState × StateRuntime) :=
  if p.2.active then
    match p.1.transitions[p.2.idx]? with
    | some t =>
      if t.timeout_ms < now - p.2.lastAdvance then
        if comp.contains t.target_node then (none, p)
        else (some (p.1.name, now - p.2.lastAdvance), (p.1, ⟨false, 0, p.2.lastAdvance⟩))
      else (none, p)
    | none => (none, p)
  else (none, p)

/-- Modelled from the spec: `WatchdogStateMachine.check_timeouts` over
all rules; `_check_timeouts` in `log_monitor.py` forwards every
returned triple to the notifier as a `StateTimeout`. -/
def checkTimeouts (m : WatchdogMachine) (now : Nat) :
    List (String × Nat) × WatchdogMachine :=
  ((m.states.map (stepTimeout m.completionNodes now)).filterMap Prod.fst,
   ⟨(m.states.map (stepTimeout m.completionNodes now)).map Prod.snd, m.completionNodes⟩)

/-- Timeout events emitted across a sequence of engine-loop ticks. -/
def runTicks (m : WatchdogMachine) : List Nat → List (String × Nat)
  | [] => []
  | t :: ts => (checkTimeouts m t).1 ++ runTicks (checkTimeouts m t).2 ts

/-- Modelled from the spec: `get_active_states` returns the rules
currently in the active phase, in declaration order. -/
def getActiveStates (m : WatchdogMachine) : List (WatchdogState × StateRuntime) :=
  m.states.filter (fun p => p.2.active)

/-- Modelled from the spec: `reset_all_states` forces every rule back
to idle with transition index 0. -/
def resetAllStates (m : WatchdogMachine) : WatchdogMachine :=
  ⟨m.states.map (fun p => (p.1, ⟨false, 0, p.2.lastAdvance⟩)), m.completionNodes⟩

/-- Modelled from the spec: `activate_state` for one rule.  When the
node equals the rule's start node, an idle rule becomes active (the
returned flag makes `_check_state_machine_rules` send `StateActivated`)
and an already-active rule re-arms silently (index 0, clock reset, no
event). -/
def activateStep (node : String) (now : Nat) (p : WatchdogState × StateRuntime) :
    Bool × (WatchdogState × StateRuntime) :=
  if p.1.start_node = node then
    if p.2.active then (false, (p.1, ⟨true, 0, now⟩))
    else (true, (p.1, ⟨true, 0, now⟩))
  else (false, p)

/-- The first loop of `_check_state_machine_rules`: try to activate
every rule and emit `StateActivated` for each newly activated one. -/
def activationPass (m : WatchdogMachine) (node : String) (now : Nat) :
    List WatchdogEvent × WatchdogMachine :=
  ((m.states.map (activateStep node now)).filterMap
     (fun br => if br.1 then some (WatchdogEvent.stateActivated br.2.1.name) else none),
   ⟨(m.states.map (activateStep node now)).map Prod.snd, m.completionNodes⟩)

/-- Modelled from the spec: `check_transition` for one rule.  An active
rule whose expected target equals the node advances (no event) or, on
its last transition, completes and resets to idle (the returned
`some true` makes the caller send `StateCompleted`).  Idle rules and
non-matching nodes return `none`. -/
def advanceStep (node : String) (now : Nat) (p : WatchdogState × StateRuntime) :
    Option Bool × (WatchdogState × StateRuntime) :=
  if p.2.active then
    match p.1.transitions[p.2.idx]? with
    | some t =>
      if t.target_node = node then
        if p.2.idx + 1 < p.1.transitions.length then
          (some false, (p.1, ⟨true, p.2.idx + 1, now⟩))
        else (some true, (p.1, ⟨false, 0, p.2.lastAdvance⟩))
      else (none, p)
    | none => (none, p)
  else (none, p)

/-- The second loop of `_check_state_machine_rules`: the rules active
after the activation pass are offered the node for advancement;
completed rules yield `StateCompleted`.  (The source iterates a
snapshot of the active rules; since each step touches only its own
rule's runtime, mapping over all rules — idle ones untouched — is the
same.) -/
def advancementPass (m : WatchdogMachine) (node : String) (now : Nat) :
    List WatchdogEvent × WatchdogMachine :=
  ((m.states.map (advanceStep node now)).filterMap
     (fun rp => match rp.1 with
       | some true => some (WatchdogEvent.stateCompleted rp.2.1.name node)
       | _ => none),
   ⟨(m.states.map (advanceStep node now)).map Prod.snd, m.completionNodes⟩)

/-- `_check_state_machine_rules`: activation loop, then advancement
loop over the machine the activation loop produced. -/
def checkRules (m : WatchdogMachine) (node : String) (now : Nat) :
    List WatchdogEvent × WatchdogMachine :=
  ((activationPass m node now).1 ++
     (advancementPass (activationPass m node now).2 node now).1,
   (advancementPass (activationPass m node now).2 node now).2)

/-- `WatchdogConfig.is_entry_node`: first declared entry node whose
node name equals the observed node. -/
def isEntryNode (entries : List EntryNode) (node : String) : Option EntryNode :=
  entries.find? (fun en => en.node_name = node)

/-- `_handle_entry_node`: one `StateInterrupted` per currently active
rule, reset all rules, one `EntryDetected`, then offer the same node to
`_check_state_machine_rules`. -/
def handleEntryNode (m : WatchdogMachine) (e : EntryNode) (node : String) (now : Nat) :
    List WatchdogEvent × WatchdogMachine :=
  ((getActiveStates m).map (fun p => WatchdogEvent.stateInterrupted p.1.name node) ++
     WatchdogEvent.entryDetected e.name node ::
     (checkRules (resetAllStates m) node now).1,
   (checkRules (resetAllStates m) node now).2)

/-- `extract` lifted to `String`. -/
def extractNodeName (line : String) : Option String :=
  (extractNode line.data).map (fun l => String.mk l)

/-- `_process_log_line`: extract a node name (pre-check included);
entry nodes interrupt and re-dispatch, other nodes go to the state
machine rules directly. -/
def processLogLine (m : WatchdogMachine) (entries : List EntryNode) (line : String)
    (now : Nat) : List WatchdogEvent × WatchdogMachine :=
  match extractNodeName line with
  | none => ([], m)
  | some node =>
    match isEntryNode entries node with
    | some e => handleEntryNode m e node now
    | none => checkRules m node now

theorem count_map_eq_countP {α β : Type} [DecidableEq β] (f : α → β) (l : List α) (y : β) :
    (l.map f).count y = l.countP (fun a => decide (f a = y)) := by
  induction l with
  | nil => rfl
  | cons a l ih =>
    simp only [List.map_cons, List.count_cons, List.countP_cons, ih]
    by_cases h : f a = y <;> simp [h]

theorem countP_eq_one_unique {α : Type} {l : List α} {pr : α → Bool} {p : α}
    (hnd : l.Nodup) (hmem : p ∈ l) (hp : pr p = true)
    (huniq : ∀ q ∈ l, pr q = true → q = p) :
    l.countP pr = 1 := by
  induction l with
  | nil => simp at hmem
  | cons a l ih =>
    rw [List.countP_cons]
    by_cases ha : pr a = true
    · have hap : a = p := huniq a (by simp) ha
      subst hap
      have hzero : l.countP pr = 0 := by
        rw [List.countP_eq_zero]
        intro q hq hpq
        have hqp : q = a := huniq q (by simp [hq]) hpq
        subst hqp
        exact (List.nodup_cons.mp hnd).1 hq
      simp [hzero, ha]
    · have hpa : p ≠ a := by rintro rfl; exact ha hp
      have hmem' : p ∈ l := by
        rcases List.mem_cons.mp hmem with h | h
        · exact absurd h hpa
        · exact h
      rw [ih (List.nodup_cons.mp hnd).2 hmem'
        (fun q hq hpq => huniq q (List.mem_cons_of_mem a hq) hpq)]
      simp [ha]

theorem checkRules_events_shape {m : WatchdogMachine} {node : String} {now : Nat} :
    ∀ ev ∈ (checkRules m node now).1,
      (∃ n, ev = WatchdogEvent.stateActivated n) ∨
      (∃ n, ev = WatchdogEvent.stateCompleted n node) := by
  intro ev hev
  simp only [checkRules] at hev
  rcases List.mem_append.mp hev with hev | hev
  · left
    simp only [activationPass] at hev
    obtain ⟨br, _, hbre⟩ := List.mem_filterMap.mp hev
    split at hbre
    · simp only [Option.some.injEq] at hbre
      exact ⟨_, hbre.symm⟩
    · simp at hbre
  · right
    simp only [advancementPass] at hev
    obtain ⟨rp, _, hrpe⟩ := List.mem_filterMap.mp hev
    split at hrpe
    · simp only [Option.some.injEq] at hrpe
      exact ⟨_, hrpe.symm⟩
    · simp at hrpe

theorem stepTimeout_snd_fst (comp : List String) (now : Nat)
    (q : WatchdogState × StateRuntime) : (stepTimeout comp now q).2.1 = q.1 := by
  unfold stepTimeout
  repeat' split
  all_goals rfl

theorem stepTimeout_fst_name {comp : List String} {now : Nat}
    {q : WatchdogState × StateRuntime} {e : String × Nat}
    (h : (stepTimeout comp now q).1 = some e) :
    e.1 = q.1.name ∧ ∃ t, q.1.transitions[q.2.idx]? = some t ∧
      comp.contains t.target_node = false := by
  unfold stepTimeout at h
  split at h
  · split at h
    · rename_i t ht
      split at h
      · split at h
        · simp at h
        · rename_i hcp
          simp only [Option.some.injEq] at h
          subst h
          exact ⟨rfl, t, ht, by simpa using hcp⟩
      · simp at h
    · simp at h
  · simp at h

theorem stepTimeout_completion_fixed {comp : List String} {now : Nat}
    {p : WatchdogState × StateRuntime} {t : WatchdogTransition}
    (hact : p.2.active = true)
    (ht : p.1.transitions[p.2.idx]? = some t)
    (hcomp : comp.contains t.target_node = true) :
    stepTimeout comp now p = (none, p) := by
  simp only [stepTimeout, hact, if_true, ht, hcomp]
  split <;> simp

/-- C1: a rule whose currently expected target node is in the
completion-node set never contributes a timeout event, over any number
of ticks: each tick leaves the rule untouched and emits nothing in its
name.  In particular a rule sitting on its final transition whose
target is a completion node never yields `StateTimeout` there.  Rule
names are unique by the declared invariant, expressed as the `Nodup`
hypothesis. -/
theorem completion_target_never_times_out (m : WatchdogMachine) (ticks : List Nat)
    (p : WatchdogState × StateRuntime) (t : WatchdogTransition)
    (hnodup : (m.states.map (fun q => q.1.name)).Nodup)
    (hmem : p ∈ m.states) (hact : p.2.active = true)
    (ht : p.1.transitions[p.2.idx]? = some t)
    (hcomp : m.completionNodes.contains t.target_node = true) :
    (runTicks m ticks).countP (fun e => decide (e.1 = p.1.name)) = 0 := by
  induction ticks generalizing m with
  | nil => simp [runTicks]
  | cons now ts ih =>
    rw [runTicks, List.countP_append]
    have hfix : stepTimeout m.completionNodes now p = (none, p) :=
      stepTimeout_completion_fixed hact ht hcomp
    have h1 : (checkTimeouts m now).1.countP (fun e => decide (e.1 = p.1.name)) = 0 := by
      rw [List.countP_eq_zero]
      intro e he hpred
      simp only [decide_eq_true_eq] at hpred
      simp only [checkTimeouts] at he
      obtain ⟨x, hx, hxe⟩ := List.mem_filterMap.mp he
      obtain ⟨q, hq, hqx⟩ := List.mem_map.mp hx
      rw [← hqx] at hxe
      obtain ⟨hname, t', ht', hcontains⟩ := stepTimeout_fst_name hxe
      have hqp : q = p :=
        List.inj_on_of_nodup_map hnodup hq hmem (by rw [hname] at hpred; exact hpred)
      subst hqp
      rw [ht] at ht'
      cases ht'
      rw [hcomp] at hcontains
      exact absurd hcontains (by simp)
    have hnodup' : ((checkTimeouts m now).2.states.map (fun q => q.1.name)).Nodup := by
      have hnames : ((checkTimeouts m now).2.states.map (fun q => q.1.name)) =
          (m.states.map (fun q => q.1.name)) := by
        simp only [checkTimeouts, List.map_map]
        apply List.map_congr_left
        intro q hq
        simp [Function.comp, stepTimeout_snd_fst]
      rw [hnames]
      exact hnodup
    have hmem' : p ∈ (checkTimeouts m now).2.states := by
      have hp : p = (stepTimeout m.completionNodes now p).2 := by rw [hfix]
      rw [hp]
      simp only [checkTimeouts, List.map_map]
      exact List.mem_map_of_mem _ hmem
    have h2 := ih (checkTimeouts m now).2 hnodup' hmem' hcomp
    omega

/-- Witness for the C1 theorem: one active rule awaiting a completion
node, two ticks far beyond the declared 100 ms timeout, no timeout
event in its name. -/
theorem completion_target_never_times_out_witness :
    (runTicks
        ⟨[(⟨"R", "A", [⟨"END", 100, "to END"⟩], "demo"⟩, ⟨true, 0, 0⟩)], ["END"]⟩
        [500, 1000]).countP
      (fun e => decide (e.1 =
        ((⟨"R", "A", [⟨"END", 100, "to END"⟩], "demo"⟩ : WatchdogState),
          (⟨true, 0, 0⟩ : StateRuntime)).1.name)) = 0 :=
  completion_target_never_times_out
    ⟨[(⟨"R", "A", [⟨"END", 100, "to END"⟩], "demo"⟩, ⟨true, 0, 0⟩)], ["END"]⟩
    [500, 1000]
    (⟨"R", "A", [⟨"END", 100, "to END"⟩], "demo"⟩, ⟨true, 0, 0⟩)
    ⟨"END", 100, "to END"⟩
    (by decide) (by decide) rfl rfl (by decide)

/-- C2: processing a line whose extracted node is a declared entry
node's node name emits one `StateInterrupted` per rule that was active
(exactly one each, by count), resets every rule to idle, emits exactly
one `EntryDetected`, and then offers the same node to the activation
pass, so every rule whose start node equals that node is activated in
the same call (a `StateActivated` in its name is emitted and the rule
is active after the activation pass).  Rule names are unique by the
declared invariant, expressed as the `Nodup` hypothesis. -/
theorem entry_interrupts_resets_and_redispatches
    (m : WatchdogMachine) (entries : List EntryNode) (line : String) (now : Nat)
    (node : String) (e : EntryNode)
    (hx : extractNodeName line = some node)
    (he : isEntryNode entries node = some e)
    (hnodup : (m.states.map (fun q => q.1.name)).Nodup) :
    processLogLine m entries line now =
      ((getActiveStates m).map (fun p => WatchdogEvent.stateInterrupted p.1.name node) ++
        WatchdogEvent.entryDetected e.name node ::
        (checkRules (resetAllStates m) node now).1,
       (checkRules (resetAllStates m) node now).2) ∧
    (∀ p ∈ (resetAllStates m).states, p.2.active = false) ∧
    (∀ p ∈ m.states, p.2.active = true →
      (processLogLine m entries line now).1.count
        (WatchdogEvent.stateInterrupted p.1.name node) = 1) ∧
    (processLogLine m entries line now).1.count
      (WatchdogEvent.entryDetected e.name node) = 1 ∧
    (∀ p ∈ m.states, p.1.start_node = node →
      WatchdogEvent.stateActivated p.1.name ∈ (processLogLine m entries line now).1 ∧
      ((p.1, (⟨true, 0, now⟩ : StateRuntime)) ∈
        (activationPass (resetAllStates m) node now).2.states)) := by
  have heq : processLogLine m entries line now =
      ((getActiveStates m).map (fun p => WatchdogEvent.stateInterrupted p.1.name node) ++
        WatchdogEvent.entryDetected e.name node ::
        (checkRules (resetAllStates m) node now).1,
       (checkRules (resetAllStates m) node now).2) := by
    simp only [processLogLine, hx, he, handleEntryNode]
  have hTzero : ∀ (y : WatchdogEvent),
      (∀ n, y ≠ WatchdogEvent.stateActivated n) →
      (∀ n, y ≠ WatchdogEvent.stateCompleted n node) →
      (checkRules (resetAllStates m) node now).1.count y = 0 := by
    intro y hy1 hy2
    rw [List.count_eq_zero]
    intro hy
    rcases checkRules_events_shape y hy with ⟨n, hn⟩ | ⟨n, hn⟩
    · exact hy1 n hn
    · exact hy2 n hn
  refine ⟨heq, ?_, ?_, ?_, ?_⟩
  · intro p hp
    simp only [resetAllStates] at hp
    obtain ⟨q, _, hq⟩ := List.mem_map.mp hp
    rw [← hq]
  · intro p hpmem hpact
    rw [heq]
    rw [List.count_append, List.count_cons]
    have hT := hTzero (WatchdogEvent.stateInterrupted p.1.name node)
      (fun n h => by cases h) (fun n h => by cases h)
    have hI : ((getActiveStates m).map
          (fun q => WatchdogEvent.stateInterrupted q.1.name node)).count
        (WatchdogEvent.stateInterrupted p.1.name node) = 1 := by
      rw [count_map_eq_countP]
      apply countP_eq_one_unique
      · exact (List.Nodup.of_map _ hnodup).filter _
      · exact List.mem_filter.mpr ⟨hpmem, hpact⟩
      · simp
      · intro q hq hpq
        simp only [decide_eq_true_eq, WatchdogEvent.stateInterrupted.injEq] at hpq
        exact List.inj_on_of_nodup_map hnodup (List.mem_of_mem_filter hq) hpmem hpq.1
    rw [hI, hT]
    simp
  · rw [heq]
    rw [List.count_append, List.count_cons]
    have hT := hTzero (WatchdogEvent.entryDetected e.name node)
      (fun n h => by cases h) (fun n h => by cases h)
    have hI : ((getActiveStates m).map
          (fun q => WatchdogEvent.stateInterrupted q.1.name node)).count
        (WatchdogEvent.entryDetected e.name node) = 0 := by
      rw [List.count_eq_zero]
      intro hmem
      obtain ⟨q, _, hq⟩ := List.mem_map.mp hmem
      cases hq
    rw [hI, hT]
    simp
  · intro p hpmem hpstart
    have hreset : (p.1, (⟨false, 0, p.2.lastAdvance⟩ : StateRuntime)) ∈
        (resetAllStates m).states := by
      simp only [resetAllStates]
      exact List.mem_map_of_mem _ hpmem
    have hstep : activateStep node now (p.1, (⟨false, 0, p.2.lastAdvance⟩ : StateRuntime)) =
        (true, (p.1, ⟨true, 0, now⟩)) := by
      simp [activateStep, hpstart]
    constructor
    · rw [heq]
      simp only [List.mem_append, List.mem_cons]
      right; right
      simp only [checkRules, List.mem_append]
      left
      simp only [activationPass]
      apply List.mem_filterMap.mpr
      refine ⟨(true, (p.1, ⟨true, 0, now⟩)), ?_, by simp⟩
      rw [← hstep]
      exact List.mem_map_of_mem _ hreset
    · simp only [activationPass, List.map_map]
      have : (p.1, (⟨true, 0, now⟩ : StateRuntime)) =
          (Prod.snd ∘ activateStep node now) (p.1, (⟨false, 0, p.2.lastAdvance⟩ : StateRuntime)) := by
        simp [Function.comp, hstep]
      rw [this]
      exact List.mem_map_of_mem _ hreset

/-- Witness for the C2 theorem: one active rule `R1`, one idle rule
`R2` whose start node `Z` doubles as the entry node; the line carrying
`Z` interrupts `R1` once, emits one `EntryDetected`, and activates
`R2` in the same call. -/
theorem entry_interrupts_resets_and_redispatches_witness :
    (processLogLine
        ⟨[(⟨"R1", "GO", [⟨"B", 1000, "t"⟩], "d1"⟩, ⟨true, 0, 0⟩),
          (⟨"R2", "Z", [⟨"C", 500, "t"⟩], "d2"⟩, ⟨false, 0, 0⟩)], []⟩
        [⟨"RESET", "Z", "barrier"⟩]
        "[pipeline_data.name=Z] | enter" 100).1.count
      (WatchdogEvent.stateInterrupted "R1" "Z") = 1 ∧
    (processLogLine
        ⟨[(⟨"R1", "GO", [⟨"B", 1000, "t"⟩], "d1"⟩, ⟨true, 0, 0⟩),
          (⟨"R2", "Z", [⟨"C", 500, "t"⟩], "d2"⟩, ⟨false, 0, 0⟩)], []⟩
        [⟨"RESET", "Z", "barrier"⟩]
        "[pipeline_data.name=Z] | enter" 100).1.count
      (WatchdogEvent.entryDetected "RESET" "Z") = 1 ∧
    WatchdogEvent.stateActivated "R2" ∈
      (processLogLine
        ⟨[(⟨"R1", "GO", [⟨"B", 1000, "t"⟩], "d1"⟩, ⟨true, 0, 0⟩),
          (⟨"R2", "Z", [⟨"C", 500, "t"⟩], "d2"⟩, ⟨false, 0, 0⟩)], []⟩
        [⟨"RESET", "Z", "barrier"⟩]
        "[pipeline_data.name=Z] | enter" 100).1 := by
  have H := entry_interrupts_resets_and_redispatches
    ⟨[(⟨"R1", "GO", [⟨"B", 1000, "t"⟩], "d1"⟩, ⟨true, 0, 0⟩),
      (⟨"R2", "Z", [⟨"C", 500, "t"⟩], "d2"⟩, ⟨false, 0, 0⟩)], []⟩
    [⟨"RESET", "Z", "barrier"⟩]
    "[pipeline_data.name=Z] | enter" 100 "Z" ⟨"RESET", "Z", "barrier"⟩
    (by decide) (by decide) (by decide)
  refine ⟨?_, H.2.2.2.1, ?_⟩
  · exact H.2.2.1 (⟨"R1", "GO", [⟨"B", 1000, "t"⟩], "d1"⟩, ⟨true, 0, 0⟩) (by decide) rfl
  · exact (H.2.2.2.2 (⟨"R2", "Z", [⟨"C", 500, "t"⟩], "d2"⟩, ⟨false, 0, 0⟩)
      (by decide) rfl).1

/-- Digit run for Python numeric parsing: accumulated value, number of
digits consumed, and the rest of the input. -/
def readNat (acc cnt : Nat) : List Char → Nat × Nat × List Char
  | [] => (acc, cnt, [])
  | c :: cs =>
    if c.isDigit then readNat (acc * 10 + (c.toNat - 48)) (cnt + 1) cs
    else (acc, cnt, c :: cs)

/-- All-digit token value, for Python `int()` (empty input fails). -/
def digitsVal (l : List Char) : Option Nat :=
  match readNat 0 0 l with
  | (v, cnt, rest) => if cnt = 0 then none else if rest.isEmpty then some v else none

/-- Python `int()` on an already-stripped token: optional sign, then
decimal digits. -/
def parsePyInt (s : List Char) : Option Int :=
  match s with
  | '-' :: rest => (digitsVal rest).map (fun n => -(n : Int))
  | '+' :: rest => (digitsVal rest).map (fun n => (n : Int))
  | _ => (digitsVal s).map (fun n => (n : Int))

/-- The mantissa sign applied to a natural magnitude. -/
def signedInt (neg : Bool) (n : Nat) : Int :=
  if neg then -(n : Int) else (n : Int)

/-- A Python float as `float()` can produce it from a configuration
token: a finite value (kept exact as a rational), a signed infinity,
or NaN.  Binary64 rounding, overflow and underflow of finite literals
are not modelled; they preserve the sign (a positive literal never
rounds to a negative or NaN value and vice versa), which is all the
`<= 0` replacement below inspects. -/
inductive PyFloat where
  | finite (q : ℚ)
  | inf (neg : Bool)
  | nan
deriving DecidableEq

/-- Python's float comparison `x <= 0`: false for NaN (every comparison
with NaN is false), true exactly for negative infinity among the
infinities. -/
def pyLeZero : PyFloat → Bool
  | .finite q => decide (q ≤ 0)
  | .inf neg => neg
  | .nan => false

/-- Python's float comparison `0 < x`: false for NaN, true for positive
infinity. -/
def pyPos : PyFloat → Bool
  | .finite q => decide (0 < q)
  | .inf neg => !neg
  | .nan => false

/-- Exponent part of Python `float()`: optional sign then digits; the
mantissa arrives as sign, numerator and power-of-ten denominator. -/
def parseExpPart (neg : Bool) (num den : Nat) (t : List Char) : Option PyFloat :=
  match
    (match t with
     | '-' :: u => (true, u)
     | '+' :: u => (false, u)
     | _ => (false, t)) with
  | (eneg, u) =>
    match readNat 0 0 u with
    | (ev, ec, rest) =>
      if ec = 0 then none
      else
        match rest with
        | [] =>
          some (PyFloat.finite
            (if eneg then mkRat (signedInt neg num) (den * 10 ^ ev)
             else mkRat (signedInt neg (num * 10 ^ ev)) den))
        | _ => none

/-- Python `float()` on a stripped token: after an optional sign, the
spellings `inf`, `infinity` and `nan` (case-insensitive) yield the
non-finite values, and a decimal literal yields the exact rational
`±(ip.fp)·10^(±ev)`. -/
def parsePyFloat (s : List Char) : Option PyFloat :=
  match
    (match s with
     | '-' :: t => (true, t)
     | '+' :: t => (false, t)
     | _ => (false, s)) with
  | (neg, s1) =>
    if s1.map Char.toLower = "inf".data || s1.map Char.toLower = "infinity".data then
      some (PyFloat.inf neg)
    else if s1.map Char.toLower = "nan".data then some PyFloat.nan
    else
      match readNat 0 0 s1 with
      | (ip, ic, r2) =>
        match
          (match r2 with
           | '.' :: t => readNat 0 0 t
           | _ => (0, 0, r2)) with
        | (fp, fc, r3) =>
          if ic + fc = 0 then none
          else
            match r3 with
            | [] => some (PyFloat.finite (mkRat (signedInt neg (ip * 10 ^ fc + fp)) (10 ^ fc)))
            | 'e' :: t => parseExpPart neg (ip * 10 ^ fc + fp) (10 ^ fc) t
            | 'E' :: t => parseExpPart neg (ip * 10 ^ fc + fp) (10 ^ fc) t
            | _ => none

/-- The monitoring fields of the pure-host `WatchdogConfig`
(config.py), with the interval as a Python float value. -/
structure MonitoringConfig where
  logFilePath : Option String
  monitorInterval : PyFloat
  enableStdoutCapture : Bool
deriving DecidableEq

/-- The `WatchdogConfig()` defaults relevant to monitoring. -/
def defaultMonitoring : MonitoringConfig := ⟨none, PyFloat.finite 1, false⟩

/-- `_parse_monitoring_config` (config.py lines 175-186): a parseable
`Monitor_Interval` comparing `<= 0` is replaced by 1.0 (NaN evades
this check and is stored); a value `float()` rejects leaves the field
unchanged (the code prints a warning and continues). -/
def parseMonitoringStep (cfg : MonitoringConfig) (key value : String) : MonitoringConfig :=
  if key = "Log_File_Path" then
    ⟨if value.isEmpty then none else some value, cfg.monitorInterval, cfg.enableStdoutCapture⟩
  else if key = "Monitor_Interval" then
    match parsePyFloat value.data with
    | some f => ⟨cfg.logFilePath, if pyLeZero f then PyFloat.finite 1 else f,
        cfg.enableStdoutCapture⟩
    | none => cfg
  else if key = "Enable_Stdout_Capture" then
    ⟨cfg.logFilePath, cfg.monitorInterval,
      (value.data.map Char.toLower == "true".data ||
       value.data.map Char.toLower == "1".data ||
       value.data.map Char.toLower == "yes".data ||
       value.data.map Char.toLower == "on".data)⟩
  else cfg

/-- The `[monitoring]` section of `load_config`: fold the key/value
lines over the defaults. -/
def loadMonitoring (kvs : List (String × String)) : MonitoringConfig :=
  kvs.foldl (fun cfg kv => parseMonitoringStep cfg kv.1 kv.2) defaultMonitoring

/-- `v.replace` removing every brace, as `config_loader.py` does. -/
def stripBraces (v : List Char) : List Char :=
  v.filter (fun c => !(c = Char.ofNat 123 || c = Char.ofNat 125))

/-- Python `", ".join(parts)`, used for the trailing description. -/
def joinComma : List (List Char) → List Char
  | [] => []
  | [p] => p
  | p :: ps => p ++ ',' :: ' ' :: joinComma ps

/-- The transition-parsing loop of `config_loader.py`'s `[states]`
branch: integers pair with the following target; the first token
`int()` rejects starts the free-text description and stops the loop;
an integer with nothing after it stops silently. -/
def transLoop : List (List Char) → List ((List Char) × Int) × List Char
  | [] => ([], [])
  | p :: rest =>
    match parsePyInt p with
    | some t =>
      (match rest with
       | [] => ([], [])
       | tgt :: rest2 => ((tgt, t) :: (transLoop rest2).1, (transLoop rest2).2))
    | none => ([], joinComma (p :: rest))

/-- One `[states]` value in `config_loader.py`: strip braces, split on
commas, strip parts; fewer than three parts yields nothing (the line
is skipped with no error), otherwise the rule is recorded — even when
the transition list comes out empty. -/
def parseStateValue (v : List Char) :
    Option ((List Char) × List ((List Char) × Int) × List Char) :=
  match (splitCh ',' (stripBraces v)).map stripChars with
  | st :: rest => if 2 ≤ rest.length then some (st, transLoop rest) else none
  | [] => none

/-- The `[states]` section accumulated in file order; malformed lines
contribute nothing. -/
def parseStatesSection :
    List ((List Char) × (List Char)) →
      List ((List Char) × (List Char) × List ((List Char) × Int) × List Char)
  | [] => []
  | (k, v) :: rest =>
    match parseStateValue v with
    | some r => (k, r.1, r.2.1, r.2.2) :: parseStatesSection rest
    | none => parseStatesSection rest

/-- `WatchdogService` startup validation (main.py): after a successful
config load, startup aborts exactly when no state rules were parsed
(`if not self.config.states: return False`). -/
def startupProceeds (kvs : List ((List Char) × (List Char))) : Bool :=
  !(parseStatesSection kvs).isEmpty

/-- The host-side configuration consumed by `ActionManager`
(config_loader.py). -/
structure HostConfig where
  notifyEvents : List String
  botToken : Option String
  webhookKey : Option String
  defaultExtNotify : Option String
deriving DecidableEq

/-- `should_notify`: membership in the `NotifyWhen` set. -/
def shouldNotify (cfg : HostConfig) (eventType : String) : Bool :=
  cfg.notifyEvents.contains eventType

/-- Python truthiness of an optional string field. -/
def optTruthy : Option String → Bool
  | none => false
  | some s => !s.isEmpty

/-- `get_available_notifiers` (config_loader.py). -/
def availableNotifiers (cfg : HostConfig) : List String :=
  (if optTruthy cfg.botToken then ["telegram"] else []) ++
    (if optTruthy cfg.webhookKey then ["wechat"] else [])

/-- The platform ordering of `_handle_notifications`: the default
platform, when available, is moved to the front. -/
def orderedPlatforms (cfg : HostConfig) : List String :=
  match cfg.defaultExtNotify with
  | some d =>
    if (availableNotifiers cfg).contains d then d :: (availableNotifiers cfg).erase d
    else availableNotifiers cfg
  | none => availableNotifiers cfg

/-- `ActionManager.execute_actions`: an event whose kind fails
`should_notify` triggers nothing (`none`); otherwise the notification
platforms are tried in order. -/
def executeActions (cfg : HostConfig) (eventType : String) : Option (List String) :=
  if !(shouldNotify cfg eventType) then none
  else some (orderedPlatforms cfg)

/-- C8 counterexample: a configuration may contain a malformed
state-rule line and still start up.  `Bad={A, 2}` has fewer than three
parts and is silently skipped; `Ugly={A, xx, B}` has a non-integer
where a timeout is expected and is recorded as a rule with no
transitions; with `Good` present the startup check passes, so no
ConfigInvalid abort happens. -/
theorem malformed_rule_does_not_abort_startup :
    parseStateValue ("A, 2".data) = none ∧
    parseStateValue ("A, xx, B".data) = some ("A".data, [], "xx, B".data) ∧
    startupProceeds
      [("Good".data, "A, 1000, B".data),
       ("Bad".data, "A, 2".data),
       ("Ugly".data, "A, xx, B".data)] = true := by
  refine ⟨by decide, by decide, by decide⟩

/-- C8 (amended): malformed state-rule lines are skipped (or recorded
with what parsed) without any error; the only startup abort is the
`No watchdog states configured` check, which fires exactly when no
rule line parses — for instance when every state line is malformed. -/
theorem startup_aborts_only_when_no_rules :
    (∀ kvs : List ((List Char) × (List Char)),
      (∀ kv ∈ kvs, parseStateValue kv.2 = none) → startupProceeds kvs = false) ∧
    (∀ (k v : List Char) (kvs : List ((List Char) × (List Char))),
      parseStateValue v = none →
      parseStatesSection ((k, v) :: kvs) = parseStatesSection kvs) := by
  constructor
  · intro kvs h
    have hempty : parseStatesSection kvs = [] := by
      induction kvs with
      | nil => rfl
      | cons kv rest ih =>
        obtain ⟨k, v⟩ := kv
        rw [parseStatesSection]
        rw [h (k, v) (by simp)]
        exact ih (fun kv2 hkv2 => h kv2 (List.mem_cons_of_mem _ hkv2))
    simp [startupProceeds, hempty]
  · intro k v kvs h
    rw [parseStatesSection, h]

/-- Witness for the amended C8 theorem: a config whose only state line
is malformed aborts startup, and the malformed line contributes no
rule. -/
theorem startup_aborts_only_when_no_rules_witness :
    startupProceeds [("Bad".data, "A, 2".data)] = false ∧
    parseStatesSection [("Bad".data, "A, 2".data)] = parseStatesSection [] :=
  ⟨startup_aborts_only_when_no_rules.1 [("Bad".data, "A, 2".data)] (by decide),
   startup_aborts_only_when_no_rules.2 ("Bad".data) ("A, 2".data) [] (by decide)⟩

/-- C9: an outbound notification is attempted only for event kinds in
the configured `NotifyWhen` set — a kind outside the set makes
`execute_actions` return without any notification action. -/
theorem notify_only_when_configured (cfg : HostConfig) (eventType : String)
    (h : cfg.notifyEvents.contains eventType = false) :
    executeActions cfg eventType = none := by
  unfold executeActions shouldNotify
  rw [h]
  rfl

/-- Witness for the C9 theorem: with the default hybrid filter
(Timeout and StateInterrupted), a StateActivated event triggers no
notification action. -/
theorem notify_only_when_configured_witness :
    executeActions ⟨["Timeout", "StateInterrupted"], some "tok", none, none⟩
      "StateActivated" = none :=
  notify_only_when_configured ⟨["Timeout", "StateInterrupted"], some "tok", none, none⟩
    "StateActivated" (by decide)

/-- C10 counterexample: the claim fails on both of its counts.  An
unparsable `Monitor_Interval` is ignored, keeping the previous value,
rather than being replaced by the default 1.0 — after `5.0` then `abc`
the interval is 5, not 1.  And `Monitor_Interval=nan` parses without
error, evades the `<= 0` check (NaN compares false) and is stored, so
a successful load can leave an interval that is not strictly
positive. -/
theorem unparsable_interval_keeps_previous_value :
    parsePyFloat ("abc".data) = none ∧
    (loadMonitoring [("Monitor_Interval", "5.0"), ("Monitor_Interval", "abc")]).monitorInterval
      = PyFloat.finite 5 ∧
    (PyFloat.finite (5 : ℚ) = PyFloat.finite 1 → False) ∧
    parsePyFloat ("nan".data) = some PyFloat.nan ∧
    (loadMonitoring [("Monitor_Interval", "nan")]).monitorInterval = PyFloat.nan ∧
    pyPos PyFloat.nan = false := by
  refine ⟨by decide, by decide, by decide, by decide, by decide, by decide⟩

/-- C10 (amended): load never fails because of `Monitor_Interval`, a
parseable value comparing `<= 0` (finite non-positive or negative
infinity) is replaced by the default 1.0, and an unparsable value is
ignored with a warning, retaining the previous value (the default 1.0
when the key was never validly set).  Strict positivity of the loaded
interval therefore holds for every configuration none of whose
`Monitor_Interval` values spells NaN — the sole escape, since
`float('nan')` is accepted, evades the `<= 0` replacement, and is
stored. -/
theorem monitor_interval_stays_positive (kvs : List (String × String))
    (hnan : ∀ kv ∈ kvs, kv.1 = "Monitor_Interval" →
      parsePyFloat kv.2.data ≠ some PyFloat.nan) :
    pyPos (loadMonitoring kvs).monitorInterval = true := by
  have step : ∀ (cfg : MonitoringConfig) (k v : String),
      pyPos cfg.monitorInterval = true →
      (k = "Monitor_Interval" → parsePyFloat v.data ≠ some PyFloat.nan) →
      pyPos (parseMonitoringStep cfg k v).monitorInterval = true := by
    intro cfg k v h hv
    unfold parseMonitoringStep
    split
    · exact h
    · split
      · rename_i hne hkey
        split
        · rename_i f hf
          have hfnan : f ≠ PyFloat.nan := by
            intro hcontra
            exact hv hkey (by rw [hf, hcontra])
          split
          · rfl
          · rename_i hle
            cases f with
            | finite q =>
              simp only [pyLeZero, decide_eq_true_eq] at hle
              simp only [pyPos, decide_eq_true_eq]
              exact lt_of_not_le hle
            | inf neg =>
              simp only [pyLeZero] at hle
              simp only [pyPos, hle]
              rfl
            | nan => exact absurd rfl hfnan
        · exact h
      · split
        · exact h
        · exact h
  have gen : ∀ (l : List (String × String)) (cfg : MonitoringConfig),
      pyPos cfg.monitorInterval = true →
      (∀ kv ∈ l, kv.1 = "Monitor_Interval" →
        parsePyFloat kv.2.data ≠ some PyFloat.nan) →
      pyPos ((l.foldl (fun c kv => parseMonitoringStep c kv.1 kv.2) cfg).monitorInterval)
        = true := by
    intro l
    induction l with
    | nil => intro cfg h _; simpa using h
    | cons kv rest ih =>
      intro cfg h hl
      exact ih _ (step _ _ _ h (hl kv (by simp)))
        (fun kv2 hkv2 => hl kv2 (List.mem_cons_of_mem _ hkv2))
  exact gen kvs defaultMonitoring (by decide) hnan

/-- Witness for the amended C10 theorem: a negative interval followed
by an unparsable one still loads to a strictly positive interval. -/
theorem monitor_interval_stays_positive_witness :
    pyPos (loadMonitoring
      [("Monitor_Interval", "-3"), ("Monitor_Interval", "abc")]).monitorInterval = true :=
  monitor_interval_stays_positive
    [("Monitor_Interval", "-3"), ("Monitor_Interval", "abc")] (by decide)

end Logdog
